import Mathlib

/-!
Shallow embedding of `pkg/fssync/diffcopy.go` (the DiffCopy sender of
container-builder-shim) and proofs about it.

Modelling conventions:
* Machine integers (`uint32` ids, mode bits) become `Nat`; the code never
  overflows them on the paths modelled here (the id counter only increments).
* Byte slices become `List Nat`.
* `types.Packet` keeps the four fields this code reads or writes: `Type`,
  `ID`, `Data`, `Stat`.  A Go struct literal leaves omitted fields at their
  zero value, which the embedding spells out explicitly (id `0`, data `[]`,
  stat `none`).
* `types.Stat` (from fsutil) is reduced to the two fields this code
  inspects, `Path` and `Mode`; the remaining metadata fields are carried
  opaquely by the real code and are elided.
* The `map[uint32]string` pending-file table becomes an association list
  with Go-map semantics (`lookupFile`, `insertFile`, `eraseFile`).
* Transport sends (`SendMsg`) are modelled as appending the packet to a
  sent-list and always succeed; receive events are an explicit list.
* The concurrent structure of `run` is modelled by the sequential
  composition `runModel`: the walk task, then the receive loop, then the
  transfer workers.  This represents the executions in which the walk
  finishes before the receive loop terminates; packet interleaving across
  tasks is not fixed, so theorems about the multiset of sent packets keep
  the three per-task streams separate (`walkSent`, `recvSent`,
  `workerSent`).  The mutual-exclusion property of `syncStream.SendMsg` is
  modelled separately by an explicit interleaving semantics (`Steps`).
-/

namespace Fssync

/-- The `types.PacketType` constants used by diffcopy.go. -/
inductive PacketType
  | STAT
  | DATA
  | REQ
  | ERR
  | FIN
deriving DecidableEq, Repr

/-- The fields of `types.Stat` that diffcopy.go inspects (`stat.Path`,
`stat.Mode`); the other metadata fields are opaque to this code. -/
structure Stat where
  path : String
  mode : Nat
deriving DecidableEq, Repr

/-- The `types.Packet` message with Go zero values made explicit. -/
structure Packet where
  type : PacketType
  id : Nat
  data : List Nat
  stat : Option Stat
deriving DecidableEq, Repr

/-- A STAT packet as built in `walk`: `&types.Packet{Type: PACKET_STAT,
Stat: stat}` — note the `ID` field is left at its zero value. -/
def statPacket (st : Stat) : Packet :=
  { type := PacketType.STAT, id := 0, data := [], stat := some st }

/-- The end-of-metadata marker `&types.Packet{Type: PACKET_STAT}`. -/
def emptyStatPacket : Packet :=
  { type := PacketType.STAT, id := 0, data := [], stat := none }

/-- The completion marker `&types.Packet{ID: h.id, Type: PACKET_DATA}`. -/
def emptyDataPacket (id : Nat) : Packet :=
  { type := PacketType.DATA, id := id, data := [], stat := none }

/-- The FIN reply `&types.Packet{Type: PACKET_FIN}`. -/
def finPacket : Packet :=
  { type := PacketType.FIN, id := 0, data := [], stat := none }

/-- An ERR packet `&types.Packet{Type: PACKET_ERR, Data: []byte(msg)}`,
with the message kept as a string. -/
def errPacket (msg : String) : Packet :=
  { type := PacketType.ERR, id := 0, data := msg.toList.map Char.toNat, stat := none }

/-- Bytes of an incoming packet rendered as a string (for
`errors.Errorf("error from receiver: %s", p.Data)`). -/
def bytesStr (bs : List Nat) : String :=
  String.mk (bs.map Char.ofNat)

/-! Section: The pending-file table (`s.files : map[uint32]string`) -/

/-- Go map lookup `p, ok := files[id]`. -/
def lookupFile : List (Nat × String) → Nat → Option String
  | [], _ => none
  | kv :: rest, k => if kv.1 = k then some kv.2 else lookupFile rest k

/-- Go map `delete(files, id)`. -/
def eraseFile : List (Nat × String) → Nat → List (Nat × String)
  | [], _ => []
  | kv :: rest, k => if kv.1 = k then eraseFile rest k else kv :: eraseFile rest k

/-- Go map assignment `files[i] = path` (overwrites any old binding). -/
def insertFile (fs : List (Nat × String)) (k : Nat) (v : String) : List (Nat × String) :=
  eraseFile fs k ++ [(k, v)]

/-! Section: Mode bits -/

/-- Constant `os.ModeDir`. -/
def ModeDir : Nat := 2 ^ 31
/-- Constant `os.ModeSymlink`. -/
def ModeSymlink : Nat := 2 ^ 27
/-- Constant `os.ModeDevice`. -/
def ModeDevice : Nat := 2 ^ 26
/-- Constant `os.ModeNamedPipe`. -/
def ModeNamedPipe : Nat := 2 ^ 25
/-- Constant `os.ModeSocket`. -/
def ModeSocket : Nat := 2 ^ 24
/-- Constant `os.ModeCharDevice`. -/
def ModeCharDevice : Nat := 2 ^ 21
/-- Constant `os.ModeIrregular`. -/
def ModeIrregular : Nat := 2 ^ 19
/-- Constant `os.ModeType`, the union of all type bits. -/
def ModeType : Nat :=
  ModeDir ||| ModeSymlink ||| ModeNamedPipe ||| ModeSocket |||
    ModeDevice ||| ModeCharDevice ||| ModeIrregular

/-- Translation of `fileCanRequestData`: `return m&os.ModeType == 0`. -/
def fileCanRequestData (m : Nat) : Bool :=
  m &&& ModeType == 0

/-! Section: sendFile and fileSender.Write -/

/-- A `sendHandle{id, path}`. -/
structure sendHandle where
  id : Nat
  path : String
deriving DecidableEq, Repr

/-- The outcome of `s.fs.Open(h.path)` followed by the reads performed by
`io.CopyBuffer`: either the open fails, or it yields the sequence of chunks
delivered by successive reads (whose concatenation is the file content read
so far) together with an optional read error that aborted the copy. -/
inductive OpenResult
  | failure
  | content (chunks : List (List Nat)) (readErr : Option String)
deriving DecidableEq, Repr

/-- The write method `fileSender.Write`: an empty slice is dropped without sending; otherwise
one DATA packet carrying the bytes is sent. -/
def fileSenderWrite (id : Nat) (dt : List Nat) : List Packet :=
  if dt.isEmpty then []
  else [{ type := PacketType.DATA, id := id, data := dt, stat := none }]

/-- The packets produced by `io.CopyBuffer(&fileSender{...}, f, buf)`: one
`fileSender.Write` call per chunk read. -/
def copyPackets (id : Nat) : List (List Nat) → List Packet
  | [] => []
  | c :: cs => fileSenderWrite id c ++ copyPackets id cs

/-- The worker body `sender.sendFile`: on successful open, copy the content (any read error
aborts the job and is returned, the completion marker unsent); then send the
empty-payload DATA completion marker.  An open failure is swallowed and only
the marker is sent.  Returns the packets sent for this job and the error
`sendFile` returns. -/
def sendFile (h : sendHandle) (r : OpenResult) : List Packet × Option String :=
  match r with
  | OpenResult.failure => ([emptyDataPacket h.id], none)
  | OpenResult.content chunks none =>
      (copyPackets h.id chunks ++ [emptyDataPacket h.id], none)
  | OpenResult.content chunks (some e) =>
      (copyPackets h.id chunks, some e)

/-! Section: The metadata walk -/

/-- One invocation of the walk callback: either the walker hands the
callback an error, or `fi.Sys()` is not a `*types.Stat`, or a normal entry
with its path and stat. -/
inductive WalkEntry
  | errEntry (msg : String)
  | noStat (path : String)
  | entry (path : String) (stat : Stat)
deriving DecidableEq, Repr

/-- Result of the walk task: the pending-file table, the packets it sent
(in order), the final value of the id counter `i`, and the error the walk
returned (if any). -/
structure WalkResult where
  files : List (Nat × String)
  sent : List Packet
  nextId : Nat
  error : Option String
deriving DecidableEq, Repr

/-- The body of `sender.walk`, starting from counter `i` and table `files`:
for each entry, record `(i -> stat.Path)` when `fileCanRequestData`, then
increment `i` and send the STAT packet; after all entries send the empty
STAT marker.  An error aborts the walk before the marker is sent (the
partial table and partial packet stream are kept). -/
def walkGo (i : Nat) (files : List (Nat × String)) : List WalkEntry → WalkResult
  | [] => ⟨files, [emptyStatPacket], i, none⟩
  | WalkEntry.errEntry msg :: _ => ⟨files, [], i, some msg⟩
  | WalkEntry.noStat path :: _ =>
      ⟨files, [], i, some ("fileinfo without stat info " ++ path ++ ": bad message")⟩
  | WalkEntry.entry _ stat :: rest =>
      let files' := if fileCanRequestData stat.mode then insertFile files i stat.path else files
      let r := walkGo (i + 1) files' rest
      ⟨r.files, statPacket stat :: r.sent, r.nextId, r.error⟩

/-- The walk task `sender.walk`: counter starts at `0`, table starts empty. -/
def walk (ents : List WalkEntry) : WalkResult :=
  walkGo 0 [] ents

/-- A list of plain (callback path, stat) pairs turned into normal walk
entries. -/
def entsOf (ents : List (String × Stat)) : List WalkEntry :=
  ents.map fun pe => WalkEntry.entry pe.1 pe.2

/-! Section: queue and the receive loop -/

/-- The dispatcher `sender.queue`: look up the id in the pending-file table and delete it
in one critical section; an absent id is an error.  On success the handle
is pushed onto the send pipeline (returned here). -/
def queue (files : List (Nat × String)) (id : Nat) :
    Except String (List (Nat × String) × sendHandle) :=
  match lookupFile files id with
  | none => Except.error ("invalid file id " ++ toString id)
  | some p => Except.ok (eraseFile files id, ⟨id, p⟩)

/-- One event observed by the receive loop: a packet delivered by
`RecvMsg`, or a receive failure. -/
inductive InEvent
  | pkt (p : Packet)
  | recvErr (msg : String)
deriving DecidableEq, Repr

/-- How the receive loop ended: it returned nil after a FIN exchange, it
returned an error, or it is still blocked in `RecvMsg` (no further events). -/
inductive LoopOutcome
  | finOk
  | errored (msg : String)
  | blocked
deriving DecidableEq, Repr

/-- Result of the receive loop: the remaining pending-file table, the
handles pushed onto the send pipeline (in order), the packets the loop
itself sent, and how it ended. -/
structure RecvResult where
  files : List (Nat × String)
  queued : List sendHandle
  sent : List Packet
  outcome : LoopOutcome
deriving DecidableEq, Repr

/-- The receive loop of `sender.run`: ERR terminates with the remote error,
REQ resolves the id through `queue` (an unknown id terminates the loop with
that error), FIN sends the FIN reply and returns nil, and any other packet
type is ignored.  A receive failure terminates the loop with it. -/
def recvLoop (files : List (Nat × String)) : List InEvent → RecvResult
  | [] => ⟨files, [], [], LoopOutcome.blocked⟩
  | InEvent.recvErr m :: _ => ⟨files, [], [], LoopOutcome.errored m⟩
  | InEvent.pkt p :: rest =>
      match p.type with
      | PacketType.ERR =>
          ⟨files, [], [], LoopOutcome.errored ("error from receiver: " ++ bytesStr p.data)⟩
      | PacketType.REQ =>
          match queue files p.id with
          | Except.error e => ⟨files, [], [], LoopOutcome.errored e⟩
          | Except.ok (files', h) =>
              let r := recvLoop files' rest
              ⟨r.files, h :: r.queued, r.sent, r.outcome⟩
      | PacketType.FIN => ⟨files, [], [finPacket], LoopOutcome.finOk⟩
      | _ => recvLoop files rest

/-! Section: run -/

/-- How `run` (and hence `DiffCopy`) ends: returns nil, returns an error,
or blocks forever waiting for input. -/
inductive RunRet
  | ok
  | hangs
  | fails (msg : String)
deriving DecidableEq, Repr

/-- The per-task packet streams of one session and its return value.  The
relative interleaving of the three streams on the wire is not fixed by the
code (beyond each stream's own order), so they are kept separate. -/
structure RunResult where
  walkSent : List Packet
  recvSent : List Packet
  workerSent : List Packet
  ret : RunRet
deriving DecidableEq, Repr

/-- All packets sent during a session, one task after another (order across
tasks is representative only). -/
def allSent (r : RunResult) : List Packet :=
  r.walkSent ++ r.recvSent ++ r.workerSent

/-- The session `sender.run`, sequentialised: the walk task runs (sending an ERR packet
carrying the walk error if it failed), the receive loop consumes `events`
against the table the walk built, and the workers drain the pipeline,
opening each requested file with result `openOf id`.  The return value is
the first error in this order (walk, receive loop, workers); a session
whose receive loop never reaches a terminal packet hangs. -/
def runModel (ents : List WalkEntry) (events : List InEvent)
    (openOf : Nat → OpenResult) : RunResult :=
  let w := walk ents
  let walkSent := w.sent ++ (match w.error with
    | some e => [errPacket e]
    | none => [])
  let rl := recvLoop w.files events
  let results := rl.queued.map fun h => sendFile h (openOf h.id)
  let workerSent := (results.map Prod.fst).flatten
  let workerErr := (results.filterMap Prod.snd).head?
  let ret := match w.error with
    | some e => RunRet.fails e
    | none =>
        match rl.outcome with
        | LoopOutcome.blocked => RunRet.hangs
        | LoopOutcome.errored e => RunRet.fails e
        | LoopOutcome.finOk =>
            match workerErr with
            | some e => RunRet.fails e
            | none => RunRet.ok
  ⟨walkSent, rl.sent, workerSent, ret⟩

/-! Section: syncStream.SendMsg: mutual exclusion on the transport

`syncStream.SendMsg` wraps the underlying `Stream.SendMsg` in
`mu.Lock(); ...; mu.Unlock()`.  To state what this buys, the underlying
send is modelled as a sequence of single-byte writes of the packet's wire
encoding (the transport write is not assumed atomic), so one `SendMsg`
call is the action block `lock; write b1; ...; write bn; unlock`.  A
session is any mutex-respecting interleaving of the tasks' action
sequences: `Steps` below says a `lock` can only be scheduled when the
mutex is free, an `unlock` only by the holder. -/

/-- One primitive action of a task on the shared transport. -/
inductive WAct
  | lock
  | unlock
  | write (b : Nat)
deriving DecidableEq, Repr

/-- Mutex semantics of one action: `some h'` is the new holder state, `none`
means the action cannot be scheduled now. -/
def stepOK : Option Nat → Nat → WAct → Option (Option Nat)
  | none, t, WAct.lock => some (some t)
  | some _, _, WAct.lock => none
  | some u, t, WAct.unlock => if u = t then some none else none
  | none, _, WAct.unlock => none
  | h, _, WAct.write _ => some h

/-- Relation `Steps h progs tr`: from holder state `h`, the tasks with remaining
action lists `progs` can perform the interleaved trace `tr` and all end
with nothing left to do. -/
inductive Steps : Option Nat → List (List WAct) → List (Nat × WAct) → Prop
  | nil (h : Option Nat) (progs : List (List WAct)) :
      (∀ p ∈ progs, p = []) → Steps h progs []
  | cons (h h' : Option Nat) (progs : List (List WAct)) (t : Nat) (a : WAct)
      (rest : List WAct) (tr : List (Nat × WAct)) :
      progs[t]? = some (a :: rest) → stepOK h t a = some h' →
      Steps h' (progs.set t rest) tr → Steps h progs ((t, a) :: tr)

/-- The action block of one `syncStream.SendMsg(m)` call, for a wire
encoding `wire`. -/
def sendMsgActs (wire : Packet → List Nat) (m : Packet) : List WAct :=
  WAct.lock :: (wire m).map WAct.write ++ [WAct.unlock]

/-- The action sequence of a task that sends the packets `ms` in order,
each through `syncStream.SendMsg`. -/
def taskActs (wire : Packet → List Nat) (ms : List Packet) : List WAct :=
  (ms.map (sendMsgActs wire)).flatten

/-- The bytes that reach the underlying stream, in trace order. -/
def writesOf : List (Nat × WAct) → List Nat
  | [] => []
  | (_, WAct.write b) :: tr => b :: writesOf tr
  | _ :: tr => writesOf tr

/-- Predicate `IsMerge ls out`: `out` is an order-preserving interleaving of the
lists `ls`. -/
inductive IsMerge : List (List Packet) → List Packet → Prop
  | nil (ls : List (List Packet)) : (∀ l ∈ ls, l = []) → IsMerge ls []
  | cons (ls : List (List Packet)) (t : Nat) (x : Packet) (rest : List Packet)
      (out : List Packet) :
      ls[t]? = some (x :: rest) → IsMerge (ls.set t rest) out → IsMerge ls (x :: out)

/-- Abstract state of one task for the invariant of the atomicity proof:
either between `SendMsg` calls with packets `ms` still to send, or inside a
call holding the lock with bytes `bs` still to write before its unlock. -/
inductive TState
  | idle (ms : List Packet)
  | mid (bs : List Nat) (ms : List Packet)

/-- The remaining action list of a task in state `ts`. -/
def tActs (wire : Packet → List Nat) : TState → List WAct
  | TState.idle ms => taskActs wire ms
  | TState.mid bs ms => bs.map WAct.write ++ WAct.unlock :: taskActs wire ms

/-- The packets a task in state `ts` has not yet begun to send. -/
def tMsgs : TState → List Packet
  | TState.idle ms => ms
  | TState.mid _ ms => ms

/-- Well-formedness of (holder, task states): the lock is held by exactly
the one task that is mid-send. -/
def Wf : Option Nat → List TState → Prop
  | none, tss => ∀ (u : Nat) (ts : TState), tss[u]? = some ts → ∃ ms, ts = TState.idle ms
  | some t, tss =>
      (∃ bs ms, tss[t]? = some (TState.mid bs ms)) ∧
        ∀ (u : Nat) (ts : TState), u ≠ t → tss[u]? = some ts → ∃ ms, ts = TState.idle ms

/-- The bytes the current lock holder still has to write for its open
packet. -/
def pendingOf : Option Nat → List TState → List Nat
  | none, _ => []
  | some t, tss =>
      match tss[t]? with
      | some (TState.mid bs _) => bs
      | _ => []

/-! Section: Helper lemmas: the pending-file table -/

theorem lookupFile_eraseFile_self (fs : List (Nat × String)) (k : Nat) :
    lookupFile (eraseFile fs k) k = none := by
  induction fs with
  | nil => rfl
  | cons kv rest ih =>
      by_cases h : kv.1 = k
      · simp [eraseFile, h, ih]
      · simp [eraseFile, lookupFile, h, ih]

theorem lookupFile_eraseFile_ne (fs : List (Nat × String)) {k k' : Nat} (h : k' ≠ k) :
    lookupFile (eraseFile fs k) k' = lookupFile fs k' := by
  induction fs with
  | nil => rfl
  | cons kv rest ih =>
      by_cases hk : kv.1 = k
      · simp [eraseFile, hk, lookupFile, Ne.symm h, ih]
      · simp only [eraseFile, if_neg hk, lookupFile]
        by_cases hk' : kv.1 = k'
        · simp [hk']
        · simp [hk', ih]

theorem lookupFile_insertFile_self (fs : List (Nat × String)) (k : Nat) (v : String) :
    lookupFile (insertFile fs k v) k = some v := by
  unfold insertFile
  induction fs with
  | nil => simp [eraseFile, lookupFile]
  | cons kv rest ih =>
      by_cases h : kv.1 = k
      · simpa [eraseFile, h] using ih
      · simpa [eraseFile, h, lookupFile] using ih

theorem lookupFile_insertFile_ne (fs : List (Nat × String)) {k k' : Nat} (v : String)
    (h : k' ≠ k) : lookupFile (insertFile fs k v) k' = lookupFile fs k' := by
  unfold insertFile
  induction fs with
  | nil => simp [eraseFile, lookupFile, Ne.symm h]
  | cons kv rest ih =>
      by_cases hk : kv.1 = k
      · simp [eraseFile, hk, lookupFile, Ne.symm h, ih]
      · simp only [eraseFile, if_neg hk, List.cons_append, lookupFile]
        by_cases hk' : kv.1 = k'
        · simp [hk']
        · simp [hk', ih]

theorem mem_of_mem_eraseFile {fs : List (Nat × String)} {k : Nat} {kv : Nat × String}
    (h : kv ∈ eraseFile fs k) : kv ∈ fs := by
  induction fs with
  | nil => simp [eraseFile] at h
  | cons kv' rest ih =>
      by_cases hk : kv'.1 = k
      · simp only [eraseFile, if_pos hk] at h
        exact List.mem_cons_of_mem _ (ih h)
      · simp only [eraseFile, if_neg hk, List.mem_cons] at h
        rcases h with h | h
        · exact h ▸ List.mem_cons_self _ _
        · exact List.mem_cons_of_mem _ (ih h)

theorem lookupFile_none_of_keys_lt {fs : List (Nat × String)} {i k : Nat}
    (hkeys : ∀ kv ∈ fs, kv.1 < i) (hik : i ≤ k) : lookupFile fs k = none := by
  induction fs with
  | nil => rfl
  | cons kv rest ih =>
      have hlt : kv.1 < i := hkeys kv (List.mem_cons_self _ _)
      have hne : kv.1 ≠ k := Nat.ne_of_lt (Nat.lt_of_lt_of_le hlt hik)
      simp only [lookupFile, if_neg hne]
      exact ih fun kv' h => hkeys kv' (List.mem_cons_of_mem _ h)

/-! Section: Helper lemmas: the content-copy packet stream -/

theorem copyPackets_mem {id : Nat} {cs : List (List Nat)} {q : Packet}
    (hq : q ∈ copyPackets id cs) :
    q.type = PacketType.DATA ∧ q.id = id ∧ q.data ≠ [] := by
  induction cs with
  | nil => simp [copyPackets] at hq
  | cons c rest ih =>
      simp only [copyPackets, List.mem_append] at hq
      rcases hq with hq | hq
      · unfold fileSenderWrite at hq
        by_cases hc : c.isEmpty
        · simp [hc] at hq
        · simp only [if_neg hc, List.mem_singleton] at hq
          subst hq
          refine ⟨rfl, rfl, ?_⟩
          simpa [List.isEmpty_iff] using hc
      · exact ih hq

theorem copyPackets_data_flatten (id : Nat) (cs : List (List Nat)) :
    ((copyPackets id cs).map Packet.data).flatten = cs.flatten := by
  induction cs with
  | nil => rfl
  | cons c rest ih =>
      unfold copyPackets fileSenderWrite
      by_cases hc : c.isEmpty
      · have : c = [] := by simpa [List.isEmpty_iff] using hc
        simp [hc, ih, this]
      · simp [hc, ih]

/-! Section: C1: round-trip of a successfully read file -/

/-- Claim C1. For a requested regular file that opens and reads successfully, the
DATA packets `sendFile` sends for its identifier are: the content packets
(each of type DATA, carrying the job's id) whose payloads concatenate to
exactly the file's bytes — for any chunking of the copy — followed by the
empty-payload completion marker as the last packet; and `sendFile` returns
no error. -/
theorem sendFile_roundtrip (id : Nat) (path : String) (chunks : List (List Nat))
    (bytes : List Nat) (hjoin : chunks.flatten = bytes) :
    (sendFile ⟨id, path⟩ (OpenResult.content chunks none)).2 = none
    ∧ (sendFile ⟨id, path⟩ (OpenResult.content chunks none)).1.getLast?
        = some (emptyDataPacket id)
    ∧ (((sendFile ⟨id, path⟩ (OpenResult.content chunks none)).1.dropLast).map
        Packet.data).flatten = bytes
    ∧ ∀ q ∈ (sendFile ⟨id, path⟩ (OpenResult.content chunks none)).1.dropLast,
        q.type = PacketType.DATA ∧ q.id = id := by
  refine ⟨rfl, ?_, ?_, ?_⟩
  · simp [sendFile]
  · simp only [sendFile, List.dropLast_concat]
    rw [copyPackets_data_flatten]
    exact hjoin
  · simp only [sendFile, List.dropLast_concat]
    intro q hq
    exact ⟨(copyPackets_mem hq).1, (copyPackets_mem hq).2.1⟩

/-- Witness for C1 at a concrete chunking of the bytes `[1, 2, 3]`. -/
theorem sendFile_roundtrip_witness :
    ([[1, 2], [3]] : List (List Nat)).flatten = [1, 2, 3]
    ∧ (((sendFile ⟨5, "w"⟩ (OpenResult.content [[1, 2], [3]] none)).1.dropLast).map
        Packet.data).flatten = [1, 2, 3] :=
  ⟨by decide, (sendFile_roundtrip 5 "w" [[1, 2], [3]] [1, 2, 3] (by decide)).2.2.1⟩

/-! Section: C4: open failure degrades to the bare completion marker -/

/-- Claim C4. When the open fails, `sendFile` sends exactly one packet — the
empty-payload DATA completion marker for the job's identifier — streams no
content, and returns no error. -/
theorem sendFile_open_failure (h : sendHandle) :
    sendFile h OpenResult.failure = ([emptyDataPacket h.id], none) := rfl

/-! Section: C10: the empty DATA packet is only ever the completion marker -/

/-- Claim C10. Every packet `sendFile` emits is a DATA packet for the job's
identifier; at most one of them has an empty payload; and whenever
`sendFile` returns without error, its last packet is the empty-payload
completion marker and every earlier packet has a nonempty payload.  (The
copy path drops zero-byte writes, so an empty DATA packet can only be the
marker.) -/
theorem sendFile_empty_marker (h : sendHandle) (r : OpenResult) :
    (∀ q ∈ (sendFile h r).1, q.type = PacketType.DATA ∧ q.id = h.id)
    ∧ (sendFile h r).1.countP (fun q => q.data.isEmpty) ≤ 1
    ∧ ((sendFile h r).2 = none →
        (sendFile h r).1.getLast? = some (emptyDataPacket h.id)
        ∧ ∀ q ∈ (sendFile h r).1.dropLast, q.data ≠ []) := by
  have hcount : ∀ cs : List (List Nat),
      (copyPackets h.id cs).countP (fun q => q.data.isEmpty) = 0 := by
    intro cs
    rw [List.countP_eq_zero]
    intro q hq
    simpa [List.isEmpty_iff] using (copyPackets_mem hq).2.2
  cases r with
  | failure =>
      refine ⟨?_, ?_, fun _ => ⟨rfl, ?_⟩⟩
      · intro q hq
        simp only [sendFile, List.mem_singleton] at hq
        subst hq
        exact ⟨rfl, rfl⟩
      · simp [sendFile, List.countP_cons, emptyDataPacket]
      · intro q hq
        simp [sendFile] at hq
  | content chunks readErr =>
      cases readErr with
      | none =>
          refine ⟨?_, ?_, fun _ => ⟨?_, ?_⟩⟩
          · intro q hq
            simp only [sendFile, List.mem_append, List.mem_singleton] at hq
            rcases hq with hq | hq
            · exact ⟨(copyPackets_mem hq).1, (copyPackets_mem hq).2.1⟩
            · subst hq
              exact ⟨rfl, rfl⟩
          · simp only [sendFile, List.countP_append, hcount chunks]
            simp [List.countP_cons, emptyDataPacket]
          · simp [sendFile]
          · simp only [sendFile, List.dropLast_concat]
            intro q hq
            exact (copyPackets_mem hq).2.2
      | some e =>
          refine ⟨?_, ?_, ?_⟩
          · intro q hq
            simp only [sendFile] at hq
            exact ⟨(copyPackets_mem hq).1, (copyPackets_mem hq).2.1⟩
          · simp only [sendFile, hcount chunks]
            exact Nat.zero_le 1
          · intro hnone
            simp [sendFile] at hnone

/-- Witness for C10 on a copy whose first read was a zero-byte write. -/
theorem sendFile_empty_marker_witness :
    (sendFile ⟨2, "y"⟩ (OpenResult.content [[], [9]] none)).1.countP
        (fun q => q.data.isEmpty) ≤ 1
    ∧ (sendFile ⟨2, "y"⟩ (OpenResult.content [[], [9]] none)).1.getLast?
        = some (emptyDataPacket 2) :=
  ⟨(sendFile_empty_marker ⟨2, "y"⟩ (OpenResult.content [[], [9]] none)).2.1,
    ((sendFile_empty_marker ⟨2, "y"⟩ (OpenResult.content [[], [9]] none)).2.2 rfl).1⟩

/-! Section: Helper lemmas: the walk -/

/-- The STAT packet a single walk entry gives rise to (none for the error
cases, which never reach the send). -/
def entryStatPkt : WalkEntry → Option Packet
  | WalkEntry.entry _ st => some (statPacket st)
  | _ => none

theorem walkGo_entsOf (ents : List (String × Stat)) : ∀ (i : Nat) (files : List (Nat × String)),
    (walkGo i files (entsOf ents)).sent
        = ents.map (fun pe => statPacket pe.2) ++ [emptyStatPacket]
    ∧ (walkGo i files (entsOf ents)).error = none
    ∧ (walkGo i files (entsOf ents)).nextId = i + ents.length := by
  induction ents with
  | nil => intro i files; exact ⟨rfl, rfl, rfl⟩
  | cons pe rest ih =>
      intro i files
      have h := ih (i + 1)
        (if fileCanRequestData pe.2.mode then insertFile files i pe.2.path else files)
      refine ⟨?_, ?_, ?_⟩
      · simp only [entsOf, List.map_cons] at h ⊢
        simp only [walkGo, h.1, List.cons_append]
      · simp only [entsOf, List.map_cons] at h ⊢
        simp only [walkGo, h.2.1]
      · simp only [entsOf, List.map_cons] at h ⊢
        simp only [walkGo, h.2.2, List.length_cons]
        omega

theorem walkGo_sent_stat (ents : List WalkEntry) :
    ∀ (i : Nat) (files : List (Nat × String)) (q : Packet),
      q ∈ (walkGo i files ents).sent → q.type = PacketType.STAT ∧ q.id = 0 := by
  induction ents with
  | nil =>
      intro i files q hq
      simp only [walkGo, List.mem_singleton] at hq
      subst hq
      exact ⟨rfl, rfl⟩
  | cons e rest ih =>
      intro i files q hq
      cases e with
      | errEntry msg => simp [walkGo] at hq
      | noStat path => simp [walkGo] at hq
      | entry path st =>
          simp only [walkGo, List.mem_cons] at hq
          rcases hq with hq | hq
          · subst hq
            exact ⟨rfl, rfl⟩
          · exact ih _ _ q hq

theorem walkGo_error_none_sent (ents : List WalkEntry) :
    ∀ (i : Nat) (files : List (Nat × String)), (walkGo i files ents).error = none →
      (walkGo i files ents).sent = ents.filterMap entryStatPkt ++ [emptyStatPacket]
      ∧ (walkGo i files ents).sent.length = ents.length + 1 := by
  induction ents with
  | nil => intro i files _; exact ⟨rfl, rfl⟩
  | cons e rest ih =>
      intro i files hok
      cases e with
      | errEntry msg => simp [walkGo] at hok
      | noStat path => simp [walkGo] at hok
      | entry path st =>
          simp only [walkGo] at hok
          have h := ih (i + 1)
            (if fileCanRequestData st.mode then insertFile files i st.path else files) hok
          refine ⟨?_, ?_⟩
          · simp only [walkGo, h.1, List.filterMap_cons, entryStatPkt, List.cons_append]
          · simp only [walkGo, List.length_cons, h.2, List.length_cons]

/-! Section: C6: one STAT per entry, in order, then exactly one empty STAT -/

/-- Claim C6. A successful walk sends exactly one STAT packet per visited entry,
in the walker's order, followed by exactly one empty STAT (no metadata) as
the final packet; in particular the stream has one packet per entry plus
one, and exactly one of its packets carries no metadata. -/
theorem walk_stat_stream (ents : List WalkEntry) (hok : (walk ents).error = none) :
    (walk ents).sent = ents.filterMap entryStatPkt ++ [emptyStatPacket]
    ∧ (walk ents).sent.length = ents.length + 1
    ∧ (walk ents).sent.countP (fun q => q.stat.isNone) = 1 := by
  have h := walkGo_error_none_sent ents 0 [] hok
  refine ⟨h.1, h.2, ?_⟩
  rw [show (walk ents).sent = (walkGo 0 [] ents).sent from rfl, h.1, List.countP_append]
  have hzero : (ents.filterMap entryStatPkt).countP (fun q => q.stat.isNone) = 0 := by
    rw [List.countP_eq_zero]
    intro q hq
    rcases List.mem_filterMap.mp hq with ⟨e, _, he⟩
    cases e with
    | errEntry msg => simp [entryStatPkt] at he
    | noStat path => simp [entryStatPkt] at he
    | entry path st =>
        simp only [entryStatPkt, Option.some_inj] at he
        subst he
        simp [statPacket]
  rw [hzero]
  simp [emptyStatPacket, List.countP_cons]

/-- Witness for C6 on a tree with a regular file and a directory. -/
theorem walk_stat_stream_witness :
    (walk (entsOf [("a", ⟨"a", 420⟩), ("b", ⟨"b", 2 ^ 31 + 493⟩)])).error = none
    ∧ (walk (entsOf [("a", ⟨"a", 420⟩), ("b", ⟨"b", 2 ^ 31 + 493⟩)])).sent.length = 3 :=
  ⟨rfl, (walk_stat_stream (entsOf [("a", ⟨"a", 420⟩), ("b", ⟨"b", 2 ^ 31 + 493⟩)]) rfl).2.1⟩

/-! Section: C2: what the per-entry STAT packet carries — corrected -/

/-- Claim C2, amended. The STAT packet sent for the `k`-th visited entry
carries that entry's metadata, but its `id` field is left at the zero
value — every packet the walk sends has `id = 0`.  The entry's sequential
identifier is implicit in the packet's position in the STAT stream, not
carried in the packet. -/
theorem walk_stat_packets (ents : List (String × Stat)) (k : Nat) :
    (walk (entsOf ents)).sent[k]?
      = (if k = ents.length then some emptyStatPacket
         else (ents[k]?).map fun pe => statPacket pe.2)
    ∧ ∀ q ∈ (walk (entsOf ents)).sent, q.id = 0 := by
  constructor
  · rw [show (walk (entsOf ents)).sent = (walkGo 0 [] (entsOf ents)).sent from rfl,
      (walkGo_entsOf ents 0 []).1]
    by_cases hk : k = ents.length
    · subst hk
      rw [if_pos rfl]
      have : ents.length = (ents.map fun pe => statPacket pe.2).length := by simp
      rw [this, List.getElem?_concat_length]
    · rw [if_neg hk]
      by_cases hlt : k < ents.length
      · rw [List.getElem?_append_left (by simpa using hlt)]
        simp [List.getElem?_map]
      · have hge : ents.length + 1 ≤ k := by omega
        rw [List.getElem?_eq_none (by simpa using hge), List.getElem?_eq_none (by omega)]
        rfl
  · intro q hq
    exact (walkGo_sent_stat (entsOf ents) 0 [] q hq).2

/-- Witness for C2 (amended): a two-entry walk, checked at index 1. -/
theorem walk_stat_packets_witness :
    (walk (entsOf [("a", ⟨"a", 420⟩), ("b", ⟨"b", 420⟩)])).sent[1]?
      = some (statPacket ⟨"b", 420⟩) :=
  by simpa using (walk_stat_packets [("a", ⟨"a", 420⟩), ("b", ⟨"b", 420⟩)] 1).1

/-- Counterexample to C2 as stated: in a walk of two regular files, the
identifier assigned to the second entry is `1`, but the STAT packet sent
for it has `id = 0` — the claim that the packet's id field equals the
entry's identifier is false. -/
theorem walk_stat_id_cex :
    ((((walk (entsOf [("a", ⟨"a", 420⟩), ("b", ⟨"b", 420⟩)])).sent[1]?).map Packet.id)
        == some 1) = false
    ∧ (((walk (entsOf [("a", ⟨"a", 420⟩), ("b", ⟨"b", 420⟩)])).sent[1]?).map Packet.id)
        = some 0 := by
  constructor
  · decide
  · decide

theorem walkGo_lookup (ents : List (String × Stat)) :
    ∀ (i : Nat) (files : List (Nat × String)), (∀ kv ∈ files, kv.1 < i) → ∀ (k : Nat),
      lookupFile (walkGo i files (entsOf ents)).files k =
        (if k < i then lookupFile files k
         else match ents[k - i]? with
           | some pe => if fileCanRequestData pe.2.mode then some pe.2.path else none
           | none => none) := by
  induction ents with
  | nil =>
      intro i files hkeys k
      by_cases hki : k < i
      · simp [entsOf, walkGo, hki]
      · simp only [entsOf, List.map_nil, walkGo, if_neg hki]
        have : lookupFile files k = none := lookupFile_none_of_keys_lt hkeys (by omega)
        simp [this]
  | cons pe rest ih =>
      intro i files hkeys k
      have hkeys' : ∀ kv ∈ (if fileCanRequestData pe.2.mode then insertFile files i pe.2.path
          else files), kv.1 < i + 1 := by
        intro kv hkv
        by_cases hcan : fileCanRequestData pe.2.mode
        · rw [if_pos hcan] at hkv
          unfold insertFile at hkv
          rcases List.mem_append.mp hkv with hkv | hkv
          · exact Nat.lt_succ_of_lt (hkeys kv (mem_of_mem_eraseFile hkv))
          · simp only [List.mem_singleton] at hkv
            subst hkv
            omega
        · rw [if_neg hcan] at hkv
          exact Nat.lt_succ_of_lt (hkeys kv hkv)
      have IH := ih (i + 1) _ hkeys' k
      have hfiles : (walkGo i files (entsOf (pe :: rest))).files
          = (walkGo (i + 1) (if fileCanRequestData pe.2.mode then insertFile files i pe.2.path
              else files) (entsOf rest)).files := by
        simp only [entsOf, List.map_cons, walkGo]
      rw [hfiles, IH]
      by_cases hki : k < i
      · rw [if_pos (by omega : k < i + 1), if_pos hki]
        by_cases hcan : fileCanRequestData pe.2.mode
        · rw [if_pos hcan]
          exact lookupFile_insertFile_ne files _ (by omega)
        · rw [if_neg hcan]
      · by_cases hkeq : k = i
        · subst hkeq
          rw [if_pos (by omega : k < k + 1), if_neg (by omega : ¬k < k)]
          simp only [Nat.sub_self, List.getElem?_cons_zero]
          by_cases hcan : fileCanRequestData pe.2.mode
          · rw [if_pos hcan, if_pos hcan]
            exact lookupFile_insertFile_self files k pe.2.path
          · rw [if_neg hcan, if_neg hcan]
            exact lookupFile_none_of_keys_lt hkeys (by omega)
        · rw [if_neg (by omega : ¬k < i + 1), if_neg hki]
          have h1 : k - i = (k - (i + 1)) + 1 := by omega
          rw [h1, List.getElem?_cons_succ]

/-! Section: C7: sequential identifiers and the pending-file table -/

/-- Claim C7. During the walk the identifier counter is incremented once per
visited entry, in walk order, starting at zero (so after `n` entries the
counter is `n`), and the pending-file table maps identifier `k` to the
`k`-th entry's path exactly when that entry's mode has no type bits set
(`fileCanRequestData`); every other identifier is absent. -/
theorem walk_files_table (ents : List (String × Stat)) (k : Nat) :
    lookupFile (walk (entsOf ents)).files k =
      (match ents[k]? with
       | some pe => if fileCanRequestData pe.2.mode then some pe.2.path else none
       | none => none)
    ∧ (walk (entsOf ents)).nextId = ents.length := by
  constructor
  · have h := walkGo_lookup ents 0 [] (by intro kv hkv; simp at hkv) k
    simpa using h
  · simpa using (walkGo_entsOf ents 0 []).2.2

/-! Section: Helper lemmas: queue and the receive loop -/

theorem queue_ok_inv {files : List (Nat × String)} {id : Nat}
    {files' : List (Nat × String)} {h : sendHandle}
    (hq : queue files id = Except.ok (files', h)) :
    files' = eraseFile files id ∧ h.id = id ∧ lookupFile files id = some h.path := by
  unfold queue at hq
  cases hlk : lookupFile files id with
  | none => rw [hlk] at hq; simp at hq
  | some p =>
      rw [hlk] at hq
      simp only [Except.ok.injEq, Prod.mk.injEq] at hq
      obtain ⟨h1, h2⟩ := hq
      subst h2
      exact ⟨h1.symm, rfl, rfl⟩

theorem queue_absent {files : List (Nat × String)} {id : Nat}
    (hlk : lookupFile files id = none) :
    queue files id = Except.error ("invalid file id " ++ toString id) := by
  simp [queue, hlk]

theorem recvLoop_queued_not_mem {id : Nat} :
    ∀ (events : List InEvent) (files : List (Nat × String)),
      lookupFile files id = none →
        id ∉ (recvLoop files events).queued.map sendHandle.id := by
  intro events
  induction events with
  | nil => intro files _; simp [recvLoop]
  | cons ev rest ih =>
      intro files hlk
      cases ev with
      | recvErr m => simp [recvLoop]
      | pkt p =>
          obtain ⟨ptype, pid, pdata, pstat⟩ := p
          cases ptype with
          | ERR => simp [recvLoop]
          | FIN => simp [recvLoop]
          | STAT => exact ih files hlk
          | DATA => exact ih files hlk
          | REQ =>
              simp only [recvLoop]
              cases hq : queue files pid with
              | error e => simp
              | ok pr =>
                  obtain ⟨files', h⟩ := pr
                  have hinv := queue_ok_inv hq
                  have hne : pid ≠ id := by
                    intro he
                    rw [he] at hq
                    rw [queue_absent hlk] at hq
                    simp at hq
                  simp only [List.map_cons, List.mem_cons]
                  push_neg
                  constructor
                  · rw [hinv.2.1]
                    exact fun he => hne he.symm
                  · apply ih
                    rw [hinv.1, lookupFile_eraseFile_ne files (Ne.symm hne)]
                    exact hlk

theorem recvLoop_req_once (id : Nat) :
    ∀ (events : List InEvent) (files : List (Nat × String)),
      ((recvLoop files events).queued.map sendHandle.id).count id ≤ 1 := by
  intro events
  induction events with
  | nil => intro files; simp [recvLoop]
  | cons ev rest ih =>
      intro files
      cases ev with
      | recvErr m => simp [recvLoop]
      | pkt p =>
          obtain ⟨ptype, pid, pdata, pstat⟩ := p
          cases ptype with
          | ERR => simp [recvLoop]
          | FIN => simp [recvLoop]
          | STAT => exact ih files
          | DATA => exact ih files
          | REQ =>
              simp only [recvLoop]
              cases hq : queue files pid with
              | error e => simp
              | ok pr =>
                  obtain ⟨files', h⟩ := pr
                  have hinv := queue_ok_inv hq
                  simp only [List.map_cons, List.count_cons]
                  by_cases hid : h.id = id
                  · have hnm : id ∉ (recvLoop files' rest).queued.map sendHandle.id := by
                      apply recvLoop_queued_not_mem
                      rw [hinv.1, ← hid, hinv.2.1]
                      exact lookupFile_eraseFile_self files pid
                    rw [List.count_eq_zero_of_not_mem hnm]
                    simp [hid]
                  · rw [if_neg (by simpa using hid)]
                    simpa using ih files'

/-! Section: C3: each identifier is consumed by at most one request -/

/-- Claim C3. `queue` performs lookup-and-delete as one step (the model applies
both in a single function, mirroring the critical section under `s.mu`):
a REQ whose identifier is absent from the pending-file table returns the
invalid-file-id error that terminates `run`; a successful REQ removes the
identifier, so a second REQ for the same identifier fails with the same
error; and across any sequence of received packets, at most one REQ for a
given identifier is ever queued to the workers. -/
theorem queue_consume_once :
    (∀ (files : List (Nat × String)) (id : Nat), lookupFile files id = none →
        queue files id = Except.error ("invalid file id " ++ toString id))
    ∧ (∀ (files : List (Nat × String)) (id : Nat) (files' : List (Nat × String))
          (h : sendHandle), queue files id = Except.ok (files', h) →
            h.id = id ∧ lookupFile files id = some h.path ∧ lookupFile files' id = none
            ∧ queue files' id = Except.error ("invalid file id " ++ toString id))
    ∧ (∀ (files : List (Nat × String)) (events : List InEvent) (id : Nat),
        ((recvLoop files events).queued.map sendHandle.id).count id ≤ 1) := by
  refine ⟨fun files id h => queue_absent h, ?_, fun files events id => recvLoop_req_once id events files⟩
  intro files id files' h hq
  have hinv := queue_ok_inv hq
  have hnone : lookupFile files' id = none := by
    rw [hinv.1]
    exact lookupFile_eraseFile_self files id
  exact ⟨hinv.2.1, hinv.2.2, hnone, queue_absent hnone⟩

/-- Witness for C3: a one-entry table; id 7 is rejected, id 3 is consumed
once and the second request for it is rejected. -/
theorem queue_consume_once_witness :
    queue [(3, "f")] 7 = Except.error ("invalid file id " ++ toString 7)
    ∧ queue [] 3 = Except.error ("invalid file id " ++ toString 3)
    ∧ (((recvLoop [(3, "f")]
          [InEvent.pkt ⟨PacketType.REQ, 3, [], none⟩,
           InEvent.pkt ⟨PacketType.REQ, 3, [], none⟩]).queued.map sendHandle.id).count 3 ≤ 1) :=
  ⟨queue_consume_once.1 [(3, "f")] 7 rfl,
    (queue_consume_once.2.1 [(3, "f")] 3 [] ⟨3, "f"⟩ rfl).2.2.2,
    queue_consume_once.2.2 [(3, "f")]
      [InEvent.pkt ⟨PacketType.REQ, 3, [], none⟩, InEvent.pkt ⟨PacketType.REQ, 3, [], none⟩] 3⟩

/-! Section: Helper lemmas: run -/

theorem sendFile_sent_data (h : sendHandle) (r : OpenResult) :
    ∀ q ∈ (sendFile h r).1, q.type = PacketType.DATA := by
  intro q hq
  cases r with
  | failure =>
      simp only [sendFile, List.mem_singleton] at hq
      subst hq
      rfl
  | content chunks readErr =>
      cases readErr with
      | none =>
          simp only [sendFile, List.mem_append, List.mem_singleton] at hq
          rcases hq with hq | hq
          · exact (copyPackets_mem hq).1
          · subst hq
            rfl
      | some e =>
          simp only [sendFile] at hq
          exact (copyPackets_mem hq).1

theorem recvLoop_sent_fin :
    ∀ (events : List InEvent) (files : List (Nat × String)),
      ∀ q ∈ (recvLoop files events).sent, q = finPacket := by
  intro events
  induction events with
  | nil => intro files q hq; simp [recvLoop] at hq
  | cons ev rest ih =>
      intro files q hq
      cases ev with
      | recvErr m => simp [recvLoop] at hq
      | pkt p =>
          obtain ⟨ptype, pid, pdata, pstat⟩ := p
          cases ptype with
          | ERR => simp [recvLoop] at hq
          | STAT => exact ih files q hq
          | DATA => exact ih files q hq
          | FIN =>
              simp only [recvLoop, List.mem_singleton] at hq
              exact hq
          | REQ =>
              simp only [recvLoop] at hq
              cases hqu : queue files pid with
              | error e => rw [hqu] at hq; simp at hq
              | ok pr =>
                  rw [hqu] at hq
                  exact ih pr.1 q hq

theorem recvLoop_finOk_sent :
    ∀ (events : List InEvent) (files : List (Nat × String)),
      (recvLoop files events).outcome = LoopOutcome.finOk →
        (recvLoop files events).sent = [finPacket] := by
  intro events
  induction events with
  | nil => intro files hfin; simp [recvLoop] at hfin
  | cons ev rest ih =>
      intro files hfin
      cases ev with
      | recvErr m => simp [recvLoop] at hfin
      | pkt p =>
          obtain ⟨ptype, pid, pdata, pstat⟩ := p
          cases ptype with
          | ERR => simp [recvLoop] at hfin
          | STAT => exact ih files hfin
          | DATA => exact ih files hfin
          | FIN => rfl
          | REQ =>
              simp only [recvLoop] at hfin ⊢
              cases hqu : queue files pid with
              | error e => rw [hqu] at hfin; simp at hfin
              | ok pr =>
                  rw [hqu] at hfin
                  obtain ⟨files', h⟩ := pr
                  exact ih files' hfin

/-! Section: C5: which local fatal errors produce an ERR packet — corrected -/

/-- Claim C5, amended. The only ERR packet a session ever sends is the one the
walk task sends when the walk itself fails (carrying that failure's
description): in any run, the ERR packets among all sent packets are
exactly `[errPacket e]` when the walk failed with `e` and none otherwise.
In particular, when the walk succeeded and the receive loop terminates
with an error — e.g. a REQ with an unassigned identifier — `run` returns
that error without sending any ERR packet. -/
theorem run_err_packet_walk_only (ents : List WalkEntry) (events : List InEvent)
    (openOf : Nat → OpenResult) :
    ((allSent (runModel ents events openOf)).filter (fun q => q.type == PacketType.ERR))
      = (match (walk ents).error with
         | some e => [errPacket e]
         | none => [])
    ∧ ((walk ents).error = none →
        ∀ e, (recvLoop (walk ents).files events).outcome = LoopOutcome.errored e →
          (runModel ents events openOf).ret = RunRet.fails e) := by
  constructor
  · have hwalk : ((walk ents).sent.filter (fun q => q.type == PacketType.ERR)) = [] := by
      rw [List.filter_eq_nil_iff]
      intro q hq
      have := (walkGo_sent_stat ents 0 [] q hq).1
      simp [this]
    have hrecv : ((recvLoop (walk ents).files events).sent.filter
        (fun q => q.type == PacketType.ERR)) = [] := by
      rw [List.filter_eq_nil_iff]
      intro q hq
      have := recvLoop_sent_fin events (walk ents).files q hq
      subst this
      simp [finPacket]
    have hworker : ((((recvLoop (walk ents).files events).queued.map
        (fun h => sendFile h (openOf h.id))).map Prod.fst).flatten.filter
          (fun q => q.type == PacketType.ERR)) = [] := by
      rw [List.filter_eq_nil_iff]
      intro q hq
      rcases List.mem_flatten.mp hq with ⟨l, hl, hql⟩
      rcases List.mem_map.mp hl with ⟨res, hres, hfst⟩
      rcases List.mem_map.mp hres with ⟨h, _, hsf⟩
      have : q.type = PacketType.DATA := by
        apply sendFile_sent_data h (openOf h.id)
        rw [hsf, hfst]
        exact hql
      simp [this]
    simp only [allSent, runModel, List.filter_append, hrecv, hworker, List.append_nil,
      hwalk, List.nil_append]
    cases herr : (walk ents).error with
    | none => simp
    | some e => simp [errPacket]
  · intro hok e hout
    simp [runModel, hok, hout]

/-- Witness for C5 (amended): a REQ for an unassigned id makes the run
return the invalid-file-id error (and, per the main theorem, no ERR packet
accompanies it). -/
theorem run_err_packet_walk_only_witness :
    (walk (entsOf [("b", ⟨"b", 420⟩)])).error = none
    ∧ (runModel (entsOf [("b", ⟨"b", 420⟩)])
          [InEvent.pkt ⟨PacketType.REQ, 9, [], none⟩] (fun _ => OpenResult.failure)).ret
        = RunRet.fails ("invalid file id " ++ toString 9) :=
  ⟨rfl,
    (run_err_packet_walk_only (entsOf [("b", ⟨"b", 420⟩)])
        [InEvent.pkt ⟨PacketType.REQ, 9, [], none⟩] (fun _ => OpenResult.failure)).2
      rfl ("invalid file id " ++ toString 9) rfl⟩

/-- Counterexample to C5 as stated: the peer requests id 5, which was never
assigned; `run` returns the invalid-file-id error but no ERR packet is
among the packets sent — the claim that every local fatal error is
preceded by an ERR packet to the peer is false. -/
theorem run_req_unknown_cex :
    (runModel (entsOf [("a", ⟨"a", 420⟩)])
          [InEvent.pkt ⟨PacketType.REQ, 5, [], none⟩] (fun _ => OpenResult.failure)).ret
        = RunRet.fails ("invalid file id " ++ toString 5)
    ∧ ((allSent (runModel (entsOf [("a", ⟨"a", 420⟩)])
          [InEvent.pkt ⟨PacketType.REQ, 5, [], none⟩] (fun _ => OpenResult.failure))).any
            (fun q => q.type == PacketType.ERR)) = false := by
  constructor
  · rfl
  · rfl

/-! Section: C8: FIN is the only clean shutdown -/

/-- Claim C8. `run` returns nil only when the receive loop ended by the FIN
exchange, and a receive loop that ends cleanly has sent exactly the FIN
reply packet. -/
theorem run_fin_clean_shutdown (ents : List WalkEntry) (events : List InEvent)
    (openOf : Nat → OpenResult) :
    ((runModel ents events openOf).ret = RunRet.ok →
        (recvLoop (walk ents).files events).outcome = LoopOutcome.finOk)
    ∧ ((recvLoop (walk ents).files events).outcome = LoopOutcome.finOk →
        (runModel ents events openOf).recvSent = [finPacket]) := by
  constructor
  · intro hret
    cases herr : (walk ents).error with
    | some e => simp [runModel, herr] at hret
    | none =>
        cases hout : (recvLoop (walk ents).files events).outcome with
        | finOk => rfl
        | blocked => simp [runModel, herr, hout] at hret
        | errored e => simp [runModel, herr, hout] at hret
  · intro hfin
    have : (runModel ents events openOf).recvSent
        = (recvLoop (walk ents).files events).sent := rfl
    rw [this]
    exact recvLoop_finOk_sent events (walk ents).files hfin

/-- Witness for C8: the spec's scenario — a 0-byte regular file `a` and a
directory `b`; the peer requests `a`'s id then sends FIN; the run returns
nil, the FIN reply is sent, and the single empty DATA marker for id 0 was
the only worker packet. -/
theorem run_fin_clean_shutdown_witness :
    (runModel (entsOf [("a", ⟨"a", 420⟩), ("b", ⟨"b", 2 ^ 31 + 493⟩)])
          [InEvent.pkt ⟨PacketType.REQ, 0, [], none⟩, InEvent.pkt ⟨PacketType.FIN, 0, [], none⟩]
          (fun _ => OpenResult.content [] none)).ret = RunRet.ok
    ∧ (runModel (entsOf [("a", ⟨"a", 420⟩), ("b", ⟨"b", 2 ^ 31 + 493⟩)])
          [InEvent.pkt ⟨PacketType.REQ, 0, [], none⟩, InEvent.pkt ⟨PacketType.FIN, 0, [], none⟩]
          (fun _ => OpenResult.content [] none)).recvSent = [finPacket]
    ∧ (runModel (entsOf [("a", ⟨"a", 420⟩), ("b", ⟨"b", 2 ^ 31 + 493⟩)])
          [InEvent.pkt ⟨PacketType.REQ, 0, [], none⟩, InEvent.pkt ⟨PacketType.FIN, 0, [], none⟩]
          (fun _ => OpenResult.content [] none)).workerSent = [emptyDataPacket 0] :=
  ⟨by decide,
    (run_fin_clean_shutdown (entsOf [("a", ⟨"a", 420⟩), ("b", ⟨"b", 2 ^ 31 + 493⟩)])
        [InEvent.pkt ⟨PacketType.REQ, 0, [], none⟩, InEvent.pkt ⟨PacketType.FIN, 0, [], none⟩]
        (fun _ => OpenResult.content [] none)).2 (by decide),
    by decide⟩

/-! Section: Helper lemmas: mutual exclusion on the transport -/

theorem lt_length_of_getElem? {α : Type _} {l : List α} {n : Nat} {a : α}
    (h : l[n]? = some a) : n < l.length := by
  by_contra hc
  rw [List.getElem?_eq_none (by omega)] at h
  exact Option.noConfusion h

theorem set_self_of_getElem? {α : Type _} :
    ∀ (l : List α) (n : Nat) (a : α), l[n]? = some a → l.set n a = l := by
  intro l
  induction l with
  | nil => intro n a h; simp at h
  | cons x xs ih =>
      intro n a h
      cases n with
      | zero => simp at h; simp [List.set, h]
      | succ m =>
          simp only [List.getElem?_cons_succ] at h
          simp [List.set, ih m a h]

theorem taskActs_eq_nil {wire : Packet → List Nat} {ms : List Packet}
    (h : taskActs wire ms = []) : ms = [] := by
  cases ms with
  | nil => rfl
  | cons m rest =>
      exfalso
      simp [taskActs, sendMsgActs] at h

theorem tActs_idle_cons (wire : Packet → List Nat) (m : Packet) (ms : List Packet) :
    tActs wire (TState.idle (m :: ms))
      = WAct.lock :: ((wire m).map WAct.write ++ (WAct.unlock :: taskActs wire ms)) := by
  simp [tActs, taskActs, sendMsgActs]

theorem tActs_mid_cons (wire : Packet → List Nat) (b : Nat) (bs : List Nat)
    (ms : List Packet) :
    tActs wire (TState.mid (b :: bs) ms)
      = WAct.write b :: (bs.map WAct.write ++ (WAct.unlock :: taskActs wire ms)) := rfl

theorem tActs_mid_nil (wire : Packet → List Nat) (ms : List Packet) :
    tActs wire (TState.mid [] ms) = WAct.unlock :: taskActs wire ms := rfl

/-- The invariant of the atomicity argument: starting from a well-formed
configuration, the byte stream produced by any mutex-respecting schedule is
the holder's pending bytes followed by the unstarted packets laid down
whole, in some interleaved order. -/
theorem steps_shape (wire : Packet → List Nat) {hm : Option Nat}
    {progs : List (List WAct)} {tr : List (Nat × WAct)}
    (hsteps : Steps hm progs tr) :
    ∀ (tss : List TState), progs = tss.map (tActs wire) → Wf hm tss →
      ∃ σ, IsMerge (tss.map tMsgs) σ
        ∧ writesOf tr = pendingOf hm tss ++ (σ.map wire).flatten := by
  induction hsteps with
  | nil hm progs hall =>
      intro tss hmap hwf
      have hts : ∀ (u : Nat) (ts : TState), tss[u]? = some ts → tActs wire ts = [] := by
        intro u ts hu
        apply hall
        rw [hmap]
        exact List.getElem?_mem (by rw [List.getElem?_map (tActs wire) tss u, hu]; rfl)
      cases hm with
      | some t =>
          exfalso
          obtain ⟨bs, ms, htm⟩ := hwf.1
          have := hts t _ htm
          cases bs with
          | nil => simp [tActs_mid_nil] at this
          | cons b bs' => simp [tActs_mid_cons] at this
      | none =>
          refine ⟨[], ?_, ?_⟩
          · apply IsMerge.nil
            intro l hl
            rcases List.mem_map.mp hl with ⟨ts, htsm, rfl⟩
            obtain ⟨u, hu⟩ := List.getElem?_of_mem htsm
            obtain ⟨ms, rfl⟩ := hwf u ts hu
            have := taskActs_eq_nil (hts u _ hu)
            subst this
            rfl
          · simp [writesOf, pendingOf]
  | cons hm h' progs t a rest tr hget hstep htail ih =>
      intro tss hmap hwf
      rw [hmap] at hget
      rw [List.getElem?_map (tActs wire) tss t] at hget
      obtain ⟨ts, hts, hacts⟩ := Option.map_eq_some'.mp hget
      have htlen : t < tss.length := lt_length_of_getElem? hts
      cases ts with
      | idle ms =>
          cases ms with
          | nil => exfalso; simp [tActs, taskActs] at hacts
          | cons m ms' =>
              rw [tActs_idle_cons] at hacts
              injection hacts with ha hrest
              subst ha
              cases hm with
              | some u => exfalso; simp [stepOK] at hstep
              | none =>
                  have h'eq : h' = some t := by
                    simp only [stepOK, Option.some_inj] at hstep
                    exact hstep.symm
                  subst h'eq
                  have hmap' : progs.set t rest
                      = (tss.set t (TState.mid (wire m) ms')).map (tActs wire) := by
                    rw [hmap, List.map_set, ← hrest]
                    rfl
                  have hwf' : Wf (some t) (tss.set t (TState.mid (wire m) ms')) := by
                    refine ⟨⟨wire m, ms', List.getElem?_set_self htlen⟩, ?_⟩
                    intro u ts' hne hu
                    rw [List.getElem?_set_ne (fun he => hne he.symm)] at hu
                    exact hwf u ts' hu
                  obtain ⟨σ', hσm, hσw⟩ := ih _ hmap' hwf'
                  refine ⟨m :: σ', ?_, ?_⟩
                  · refine IsMerge.cons (tss.map tMsgs) t m ms' σ' ?_ ?_
                    · rw [List.getElem?_map tMsgs tss t, hts]; rfl
                    · have : (tss.map tMsgs).set t ms'
                          = (tss.set t (TState.mid (wire m) ms')).map tMsgs := by
                        rw [List.map_set]
                        rfl
                      rw [this]
                      exact hσm
                  · have hw : writesOf ((t, WAct.lock) :: tr) = writesOf tr := rfl
                    rw [hw, hσw]
                    have hp : pendingOf (some t) (tss.set t (TState.mid (wire m) ms'))
                        = wire m := by
                      simp [pendingOf, List.getElem?_set_self htlen]
                    rw [hp]
                    simp [pendingOf]
      | mid bs ms =>
          have hc_eq : hm = some t := by
            cases hm with
            | none =>
                exfalso
                obtain ⟨ms', he⟩ := hwf t _ hts
                exact TState.noConfusion he
            | some u =>
                by_cases hu : u = t
                · rw [hu]
                · exfalso
                  obtain ⟨ms', he⟩ := hwf.2 t _ (fun hh => hu hh.symm) hts
                  exact TState.noConfusion he
          subst hc_eq
          cases bs with
          | cons b bs' =>
              rw [tActs_mid_cons] at hacts
              injection hacts with ha hrest
              subst ha
              have h'eq : h' = some t := by
                simp only [stepOK, Option.some_inj] at hstep
                exact hstep.symm
              subst h'eq
              have hmap' : progs.set t rest
                  = (tss.set t (TState.mid bs' ms)).map (tActs wire) := by
                rw [hmap, List.map_set, ← hrest]
                rfl
              have hwf' : Wf (some t) (tss.set t (TState.mid bs' ms)) := by
                refine ⟨⟨bs', ms, List.getElem?_set_self htlen⟩, ?_⟩
                intro u ts' hne hu
                rw [List.getElem?_set_ne (fun he => hne he.symm)] at hu
                exact hwf.2 u ts' hne hu
              obtain ⟨σ', hσm, hσw⟩ := ih _ hmap' hwf'
              refine ⟨σ', ?_, ?_⟩
              · have : (tss.set t (TState.mid bs' ms)).map tMsgs = tss.map tMsgs := by
                  rw [List.map_set]
                  exact set_self_of_getElem? _ t _
                    (by rw [List.getElem?_map tMsgs tss t, hts]; rfl)
                rw [← this]
                exact hσm
              · have hw : writesOf ((t, WAct.write b) :: tr) = b :: writesOf tr := rfl
                rw [hw, hσw]
                have hp : pendingOf (some t) (tss.set t (TState.mid bs' ms)) = bs' := by
                  simp [pendingOf, List.getElem?_set_self htlen]
                have hp0 : pendingOf (some t) tss = b :: bs' := by
                  simp [pendingOf, hts]
                rw [hp, hp0]
                rfl
          | nil =>
              rw [tActs_mid_nil] at hacts
              injection hacts with ha hrest
              subst ha
              have h'eq : h' = none := by
                simp [stepOK] at hstep
                exact hstep.symm
              subst h'eq
              have hmap' : progs.set t rest
                  = (tss.set t (TState.idle ms)).map (tActs wire) := by
                rw [hmap, List.map_set, ← hrest]
                rfl
              have hwf' : Wf none (tss.set t (TState.idle ms)) := by
                intro u ts' hu
                by_cases huu : u = t
                · subst huu
                  rw [List.getElem?_set_self htlen] at hu
                  exact ⟨ms, (Option.some_inj.mp hu).symm⟩
                · rw [List.getElem?_set_ne (fun he => huu he.symm)] at hu
                  exact hwf.2 u ts' huu hu
              obtain ⟨σ', hσm, hσw⟩ := ih _ hmap' hwf'
              refine ⟨σ', ?_, ?_⟩
              · have : (tss.set t (TState.idle ms)).map tMsgs = tss.map tMsgs := by
                  rw [List.map_set]
                  exact set_self_of_getElem? _ t _
                    (by rw [List.getElem?_map tMsgs tss t, hts]; rfl)
                rw [← this]
                exact hσm
              · have hw : writesOf ((t, WAct.unlock) :: tr) = writesOf tr := rfl
                rw [hw, hσw]
                simp [pendingOf, hts]

/-! Section: C9: whole-packet atomicity of the serialized send path -/

/-- Claim C9. Every outbound send goes through `syncStream.SendMsg`, which wraps
the underlying non-atomic stream write in one mutex.  For any number of
tasks, each sending its packets through that wrapper (`taskActs`), and any
mutex-respecting interleaving of their actions (`Steps`), the byte stream
reaching the transport is a whole-packet interleaving: there is an
order-preserving merge `σ` of the tasks' packet lists such that the bytes
written are exactly the packets' encodings laid down one whole packet at a
time, never interleaved byte-for-byte. -/
theorem sendMsg_whole_packet (wire : Packet → List Nat) (pls : List (List Packet))
    (tr : List (Nat × WAct)) (hs : Steps none (pls.map (taskActs wire)) tr) :
    ∃ σ, IsMerge pls σ ∧ writesOf tr = (σ.map wire).flatten := by
  have hmap : pls.map (taskActs wire) = (pls.map TState.idle).map (tActs wire) := by
    rw [List.map_map]
    rfl
  have hwf : Wf none (pls.map TState.idle) := by
    intro u ts hu
    rw [List.getElem?_map TState.idle pls u] at hu
    rcases Option.map_eq_some'.mp hu with ⟨ms, _, rfl⟩
    exact ⟨ms, rfl⟩
  obtain ⟨σ, hσm, hσw⟩ := steps_shape wire hs (pls.map TState.idle) hmap hwf
  have hid : (pls.map TState.idle).map tMsgs = pls := by
    rw [List.map_map]
    exact List.map_id pls
  rw [hid] at hσm
  exact ⟨σ, hσm, by simpa using hσw⟩

/-- Witness for C9: one task sending one packet under the lock. -/
theorem sendMsg_whole_packet_witness :
    ∃ σ, IsMerge [[{ type := PacketType.DATA, id := 0, data := [7], stat := none }]] σ
      ∧ writesOf [(0, WAct.lock), (0, WAct.write 7), (0, WAct.unlock)]
          = (σ.map (fun p => p.data)).flatten := by
  apply sendMsg_whole_packet
  refine Steps.cons _ (some 0) _ 0 _ [WAct.write 7, WAct.unlock] _ rfl rfl ?_
  refine Steps.cons _ (some 0) _ 0 _ [WAct.unlock] _ rfl rfl ?_
  refine Steps.cons _ none _ 0 _ [] _ rfl rfl ?_
  apply Steps.nil
  decide

end Fssync
